import Mathlib

/-!
Shallow embedding of the Zenless Collector script (src/Main.py): the code
extraction and filtering pipeline (date parsing, code and reward matching,
deduplication with maximum, sorting, cache diffing), together with theorems
checking the specification's claims against it.

Strings are modelled as Lean strings over their character lists; the ASCII
fragment of the Python semantics (lowercasing, word characters, whitespace)
is embedded explicitly, which is faithful for every text the claims touch.
-/

namespace ZC

/-! ## Character helpers (ASCII fragment of the Python semantics) -/

def charLower (c : Char) : Char :=
  if 'A' ≤ c && c ≤ 'Z' then Char.ofNat (c.toNat + 32) else c

def charUpper (c : Char) : Char :=
  if 'a' ≤ c && c ≤ 'z' then Char.ofNat (c.toNat - 32) else c

def lowerL (l : List Char) : List Char := l.map charLower

def upperL (l : List Char) : List Char := l.map charUpper

def isDigitChar (c : Char) : Bool := '0' ≤ c && c ≤ '9'

def isSpaceChar (c : Char) : Bool :=
  c = ' ' || c = '\t' || c = '\n' || c = '\x0d' || c = '\x0b' || c = '\x0c'

-- Python regex \w over the ASCII range.
def isWordChar (c : Char) : Bool :=
  ('A' ≤ c && c ≤ 'Z') || ('a' ≤ c && c ≤ 'z') || ('0' ≤ c && c ≤ '9') || c = '_'

-- The character class [A-Z0-9] of code_pattern.
def isCodeChar (c : Char) : Bool := ('A' ≤ c && c ≤ 'Z') || ('0' ≤ c && c ≤ '9')

def digitVal (c : Char) : Nat := c.toNat - 48

/-- needle is a prefix of the second list (the anchored part of Python `in`). -/
def isPref : List Char → List Char → Bool
  | [], _ => true
  | _ :: _, [] => false
  | a :: as, b :: bs => a == b && isPref as bs

/-- Python substring containment `needle in hay`. -/
def containsSub (needle : List Char) : List Char → Bool
  | [] => isPref needle []
  | c :: t => isPref needle (c :: t) || containsSub needle t

/-! ## Dates -/

structure Date where
  year : Nat
  month : Nat
  day : Nat
deriving DecidableEq, Repr

/-- Python date comparison `a < b` (lexicographic on year, month, day). -/
def Date.ltb (a b : Date) : Bool :=
  if a.year < b.year then true
  else if b.year < a.year then false
  else if a.month < b.month then true
  else if b.month < a.month then false
  else decide (a.day < b.day)

inductive ExpiryStatus where
  | noExpiry
  | expired
  | onDate (d : Date)
deriving DecidableEq, Repr

/-! ## strptime for the three formats of date_formats -/

def isLeap (y : Nat) : Bool := (y % 4 == 0 && y % 100 != 0) || y % 400 == 0

def daysInMonth (y m : Nat) : Nat :=
  if m == 2 then (if isLeap y then 29 else 28)
  else if m == 4 || m == 6 || m == 9 || m == 11 then 30 else 31

/-- datetime(year, month, day) validation (month range is enforced by the
format regexes, MINYEAR = 1 and the day must exist in the month). -/
def mkValidDate (y m d : Nat) : Option Date :=
  if 1 ≤ y && 1 ≤ d && d ≤ daysInMonth y m then some ⟨y, m, d⟩ else none

def monthFull : List (List Char × Nat) :=
  [("january".toList, 1), ("february".toList, 2), ("march".toList, 3),
   ("april".toList, 4), ("may".toList, 5), ("june".toList, 6),
   ("july".toList, 7), ("august".toList, 8), ("september".toList, 9),
   ("october".toList, 10), ("november".toList, 11), ("december".toList, 12)]

def monthAbbr : List (List Char × Nat) :=
  [("jan".toList, 1), ("feb".toList, 2), ("mar".toList, 3),
   ("apr".toList, 4), ("may".toList, 5), ("jun".toList, 6),
   ("jul".toList, 7), ("aug".toList, 8), ("sep".toList, 9),
   ("oct".toList, 10), ("nov".toList, 11), ("dec".toList, 12)]

/-- %B or %b: a month name, matched case-insensitively (no name in either
list is a prefix of another of the same list, so order does not matter). -/
def parseMonth (names : List (List Char × Nat)) (s : List Char) :
    Option (Nat × List Char) :=
  names.findSome? fun nm =>
    if isPref nm.1 (lowerL s) then some (nm.2, s.drop nm.1.length) else none

/-- A whitespace character in a strptime format matches \s+. -/
def parseWs1 (s : List Char) : Option (List Char) :=
  match s with
  | c :: t => if isSpaceChar c then some (t.dropWhile isSpaceChar) else none
  | [] => none

def parseLit (c : Char) (s : List Char) : Option (List Char) :=
  match s with
  | a :: t => if a == c then some t else none
  | [] => none

/-- %d: the regex (3[01]|[12]\d|0[1-9]|[1-9]), two digits valued 1..31 or a
single nonzero digit. -/
def parseDay : List Char → Option (Nat × List Char)
  | a :: b :: rest =>
    if isDigitChar a && isDigitChar b then
      (let v := digitVal a * 10 + digitVal b
       if 1 ≤ v && v ≤ 31 then some (v, rest)
       else if 1 ≤ digitVal a then some (digitVal a, b :: rest) else none)
    else if isDigitChar a && 1 ≤ digitVal a then some (digitVal a, b :: rest)
    else none
  | [a] => if isDigitChar a && 1 ≤ digitVal a then some (digitVal a, []) else none
  | [] => none

/-- %m: the regex (1[0-2]|0[1-9]|[1-9]). -/
def parseMonthNum : List Char → Option (Nat × List Char)
  | a :: b :: rest =>
    if isDigitChar a && isDigitChar b then
      (let v := digitVal a * 10 + digitVal b
       if 1 ≤ v && v ≤ 12 then some (v, rest)
       else if 1 ≤ digitVal a then some (digitVal a, b :: rest) else none)
    else if isDigitChar a && 1 ≤ digitVal a then some (digitVal a, b :: rest)
    else none
  | [a] => if isDigitChar a && 1 ≤ digitVal a then some (digitVal a, []) else none
  | [] => none

/-- %Y: exactly four digits. -/
def parseYear4 : List Char → Option (Nat × List Char)
  | a :: b :: c :: d :: rest =>
    if isDigitChar a && isDigitChar b && isDigitChar c && isDigitChar d then
      some (digitVal a * 1000 + digitVal b * 100 + digitVal c * 10 + digitVal d, rest)
    else none
  | _ => none

/-- strptime against "%B %d, %Y" or "%b %d, %Y" (month names supplied). -/
def fmtMonthName (names : List (List Char × Nat)) (s : List Char) : Option Date :=
  match parseMonth names s with
  | none => none
  | some (m, s1) =>
    match parseWs1 s1 with
    | none => none
    | some s2 =>
      match parseDay s2 with
      | none => none
      | some (d, s3) =>
        match parseLit ',' s3 with
        | none => none
        | some s4 =>
          match parseWs1 s4 with
          | none => none
          | some s5 =>
            match parseYear4 s5 with
            | some (y, []) => mkValidDate y m d
            | _ => none

/-- strptime against "%Y-%m-%d". -/
def fmtIso (s : List Char) : Option Date :=
  match parseYear4 s with
  | some (y, s1) =>
    match parseLit '-' s1 with
    | none => none
    | some s2 =>
      match parseMonthNum s2 with
      | none => none
      | some (m, s3) =>
        match parseLit '-' s3 with
        | none => none
        | some s4 =>
          match parseDay s4 with
          | some (d, []) => mkValidDate y m d
          | _ => none
  | none => none

/-- The loop over date_formats = ["%B %d, %Y", "%b %d, %Y", "%Y-%m-%d"]:
first successful parse wins. -/
def tryFormats (s : List Char) : Option Date :=
  match fmtMonthName monthFull s with
  | some d => some d
  | none =>
    match fmtMonthName monthAbbr s with
    | some d => some d
    | none => fmtIso s

/-! ## parse_date -/

/-- re.sub(r"\[\d+\]", "", txt): the text after a left bracket begins with a
nonempty digit run closed by a right bracket, which is removed. -/
def dropFootnote : List Char → Option (List Char)
  | [] => none
  | c :: t =>
    if isDigitChar c then
      match t with
      | ']' :: rest => some rest
      | _ => dropFootnote t
    else none

theorem dropFootnote_lt (l : List Char) :
    ∀ r, dropFootnote l = some r → r.length < l.length := by
  induction l with
  | nil => intro r h; simp [dropFootnote] at h
  | cons c t ih =>
    intro r h
    unfold dropFootnote at h
    split at h
    · split at h
      · injection h with h
        subst h
        simp
        omega
      · have := ih r h
        simp
        omega
    · simp at h

/-- The scan of re.sub, written with a structural fuel so that it computes;
each removal shortens the text, so fuel equal to the length always
suffices (dropFootnote_lt). -/
def stripFootnotesAux : Nat → List Char → List Char
  | 0, l => l
  | _ + 1, [] => []
  | n + 1, c :: t =>
    if c = '[' then
      match dropFootnote t with
      | some rest => stripFootnotesAux n rest
      | none => c :: stripFootnotesAux n t
    else c :: stripFootnotesAux n t

def stripFootnotes (l : List Char) : List Char := stripFootnotesAux l.length l

/-- Python str.strip(): whitespace removed from both ends. -/
def stripWs (l : List Char) : List Char :=
  ((l.dropWhile isSpaceChar).reverse.dropWhile isSpaceChar).reverse

/-- The marker set checked by substring containment (the third entry is the
mis-decoded em dash that the source file holds verbatim). -/
def markers : List (List Char) :=
  ["no expiry".toList, "none".toList, "â€”".toList, "-".toList,
   "tbd".toList, "unknown".toList]

/-- parse_date from src/Main.py lines 22-36. None is noExpiry, the string
"EXPIRED" is expired, a parsed date is onDate. -/
def parse_date (txt : String) : ExpiryStatus :=
  if txt = "" then .noExpiry
  else
    let low := lowerL txt.toList
    if containsSub "expired".toList low then .expired
    else if markers.any (fun m => containsSub m low) then .noExpiry
    else
      match tryFormats (stripWs (stripFootnotes txt.toList)) with
      | some d => .onDate d
      | none => .noExpiry

/-! ## The two regex searches -/

/-- re.search of code_pattern = \b[A-Z0-9]{6,24}\b: a run of class characters
of length 6..24, bounded by the string ends or non-word characters; at a
start with more than 24 class characters every greedy backtrack leaves a word
character after the match, so such a run never matches. The scan walks left
to right carrying whether the previous character is a word character. -/
def codeSearchAux : Bool → List Char → Option (List Char)
  | _, [] => none
  | prev, c :: rest =>
    if !prev && isCodeChar c then
      (let run := (c :: rest).takeWhile isCodeChar
       let after := (c :: rest).dropWhile isCodeChar
       if 6 ≤ run.length && run.length ≤ 24 &&
           (match after with | [] => true | a :: _ => !isWordChar a) then
         some run
       else codeSearchAux (isWordChar c) rest)
    else codeSearchAux (isWordChar c) rest

def code_search (s : String) : Option String :=
  (codeSearchAux false s.toList).map fun l => ⟨l⟩

/-- re.search of poly_pattern = (\d{1,4})\s*Polychrome[s]? (IGNORECASE):
at a position opening a digit run of at most four digits, the run, then any
whitespace, must be followed by "polychrome"; a longer digit run leaves a
digit after every greedy backtrack, so the scan moves on. Returns group 1
as a number (int of the digits). -/
def natOfDigits (l : List Char) : Nat := l.foldl (fun a c => a * 10 + digitVal c) 0

def polySearchAux : List Char → Option Nat
  | [] => none
  | c :: rest =>
    if isDigitChar c then
      (let run := (c :: rest).takeWhile isDigitChar
       if run.length ≤ 4 &&
           isPref "polychrome".toList
             (lowerL ((c :: rest).dropWhile isDigitChar |>.dropWhile isSpaceChar)) then
         some (natOfDigits run)
       else polySearchAux rest)
    else polySearchAux rest

def poly_search (s : String) : Option Nat := polySearchAux s.toList

/-! ## The row loop of fetch_codes -/

/-- One iteration of the row loop (src/Main.py lines 55-84): the appended
(code, poly) pair, or none when the row is skipped. A row is its list of
cell texts; missing cells read as "". -/
def processRow (today : Date) (cells : List String) : Option (String × Nat) :=
  if cells.isEmpty then none
  else
    match code_search ⟨upperL (cells.getD 0 "").toList⟩ with
    | none => none
    | some code =>
      match parse_date (cells.getD 2 "") with
      | .expired => none
      | .onDate d =>
        if Date.ltb d today then none
        else
          (match poly_search (cells.getD 1 "") with
           | none => none
           | some poly => if 0 < poly then some (code, poly) else none)
      | .noExpiry =>
        (match poly_search (cells.getD 1 "") with
         | none => none
         | some poly => if 0 < poly then some (code, poly) else none)

/-- The codes list accumulated by the loop. -/
def collectCodes (today : Date) (rows : List (List String)) : List (String × Nat) :=
  rows.filterMap (processRow today)

/-! ## Deduplication (the final_codes dict) and sorting -/

/-- One dict update `final_codes[c] = max(p, final_codes[c])`, or insertion
at the end when the key is new (Python dicts keep insertion order). -/
def updateAssoc : List (String × Nat) → String → Nat → List (String × Nat)
  | [], c, p => [(c, p)]
  | (c0, p0) :: t, c, p =>
    if c0 = c then (c0, max p p0) :: t else (c0, p0) :: updateAssoc t c p

/-- The dict built by the dedupe loop (src/Main.py lines 87-92), as an
association list in key insertion order. -/
def final_codes (codes : List (String × Nat)) : List (String × Nat) :=
  codes.foldl (fun acc cp => updateAssoc acc cp.1 cp.2) []

/-- The sort key order of sorted(..., key=lambda x: -x[1]): an entry sorts
before another when its reward is at least as large. -/
def rge (a b : String × Nat) : Prop := b.2 ≤ a.2

instance : DecidableRel rge := fun _ b => Nat.decLe b.2 _

instance : IsTotal (String × Nat) rge := ⟨fun a b => Nat.le_total b.2 a.2⟩

instance : IsTrans (String × Nat) rge := ⟨fun _ _ _ h1 h2 => Nat.le_trans h2 h1⟩

/-- Python sorted is a stable sort; a stable sort by a key is unique, so the
stable insertion sort embeds it. -/
def sortDesc (l : List (String × Nat)) : List (String × Nat) :=
  List.insertionSort rge l

/-- The abstracted outcome of the GET request and table lookup: a transport
or status error, or a page with or without the designated wikitable, whose
rows are lists of cell texts. -/
inductive FetchInput where
  | netError
  | page (table : Option (List (List String)))

/-- fetch_codes (src/Main.py lines 38-95) over the abstracted page input. -/
def fetch_codes (today : Date) (inp : FetchInput) : List (String × Nat) :=
  match inp with
  | .netError => []
  | .page none => []
  | .page (some rows) => sortDesc (final_codes (collectCodes today rows))

/-! ## Cache -/

/-- The outcome of reading the cache file: none when the file does not
exist; otherwise what json.load does with its contents. -/
inductive LoadResult where
  | ok (m : List (String × Nat))
  | err (e : String)
deriving DecidableEq, Repr

/-- load_cache (src/Main.py lines 98-102): a missing file yields the empty
mapping; an existing file is json.load with no handler, so its outcome is
returned as is, a failure propagating. -/
def load_cache (file : Option LoadResult) : LoadResult :=
  match file with
  | none => .ok []
  | some r => r

def lookupA : List (String × Nat) → String → Option Nat
  | [], _ => none
  | (c, p) :: t, x => if c = x then some p else lookupA t x

/-- new_codes = [c for c, p in codes if c not in cached] (line 118). -/
def new_codes (codes cached : List (String × Nat)) : List String :=
  (codes.filter fun cp => !(lookupA cached cp.1).isSome).map Prod.fst

/-- One dict insertion {c: p}: the first entry with the key is replaced in
place, a new key goes to the end. -/
def dictInsert : List (String × Nat) → String → Nat → List (String × Nat)
  | [], c, p => [(c, p)]
  | (c0, p0) :: t, c, p =>
    if c0 = c then (c0, p) :: t else (c0, p0) :: dictInsert t c p

/-- The dict comprehension {c: p for c, p in codes} persisted by save_cache
(line 119). -/
def save_cache_map (codes : List (String × Nat)) : List (String × Nat) :=
  codes.foldl (fun acc cp => dictInsert acc cp.1 cp.2) []

/-- The expiry classification of a candidate row is not the expired marker. -/
def statusNotExpired : ExpiryStatus → Bool
  | .expired => false
  | _ => true

/-- Any concrete date the classification carries is not before the given
day. -/
def statusDateNotPast : ExpiryStatus → Date → Bool
  | .onDate d, t => !Date.ltb d t
  | _, _ => true

/-! # Helper lemmas -/

theorem Date.ltb_irrefl (d : Date) : Date.ltb d d = false := by
  simp [Date.ltb]

theorem Date.ltb_asymm (a b : Date) (h : Date.ltb a b = true) :
    Date.ltb b a = false := by
  unfold Date.ltb at h ⊢
  split_ifs at h ⊢ <;> simp_all <;> omega

/-- The maximum reward the input associates to a key, read off the list. -/
def maxRs : List (String × Nat) → String → Option Nat
  | [], _ => none
  | (c, p) :: t, x =>
    if c = x then
      (match maxRs t x with
       | none => some p
       | some q => some (max p q))
    else maxRs t x

def combineMax : Option Nat → Option Nat → Option Nat
  | none, m => m
  | some a, none => some a
  | some a, some b => some (max a b)

theorem lookupA_updateAssoc (l : List (String × Nat)) (c : String) (p : Nat)
    (x : String) :
    lookupA (updateAssoc l c p) x =
      if c = x then
        (match lookupA l c with
         | none => some p
         | some q => some (max p q))
      else lookupA l x := by
  induction l with
  | nil => simp [updateAssoc, lookupA]
  | cons hd t ih =>
    obtain ⟨c0, p0⟩ := hd
    by_cases hc : c0 = c
    · subst hc
      by_cases hx : c0 = x
      · subst hx
        simp [updateAssoc, lookupA]
      · simp [updateAssoc, lookupA, hx]
    · by_cases hx : c0 = x
      · subst hx
        simp [updateAssoc, lookupA, hc, Ne.symm hc]
      · simp only [updateAssoc, if_neg hc, lookupA, if_neg hx]
        exact ih

theorem lookupA_foldl (codes : List (String × Nat)) :
    ∀ acc x,
      lookupA (codes.foldl (fun a cp => updateAssoc a cp.1 cp.2) acc) x
        = combineMax (lookupA acc x) (maxRs codes x) := by
  induction codes with
  | nil =>
    intro acc x
    cases h : lookupA acc x <;> simp [maxRs, combineMax, h]
  | cons hd t ih =>
    intro acc x
    obtain ⟨c, p⟩ := hd
    simp only [List.foldl_cons]
    rw [ih, lookupA_updateAssoc]
    by_cases hcx : c = x
    · subst hcx
      simp only [maxRs, if_pos rfl]
      cases h1 : lookupA acc c <;> cases h2 : maxRs t c <;>
        simp [combineMax] <;> omega
    · simp [maxRs, hcx]

theorem lookupA_final_codes (codes : List (String × Nat)) (x : String) :
    lookupA (final_codes codes) x = maxRs codes x := by
  unfold final_codes
  rw [lookupA_foldl]
  cases h : maxRs codes x <;> simp [lookupA, combineMax]

theorem maxRs_none (codes : List (String × Nat)) (x : String)
    (h : maxRs codes x = none) : ∀ q, (x, q) ∉ codes := by
  induction codes with
  | nil => simp
  | cons hd t ih =>
    obtain ⟨c, p⟩ := hd
    intro q hq
    unfold maxRs at h
    by_cases hc : c = x
    · subst hc
      cases h2 : maxRs t c <;> simp [h2] at h
    · rw [if_neg hc] at h
      rcases List.mem_cons.mp hq with h0 | h0
      · exact hc (by injection h0 with ha hb; exact ha.symm)
      · exact ih h q h0

theorem maxRs_some (codes : List (String × Nat)) (x : String) :
    ∀ p, maxRs codes x = some p →
      (x, p) ∈ codes ∧ ∀ q, (x, q) ∈ codes → q ≤ p := by
  induction codes with
  | nil => intro p h; simp [maxRs] at h
  | cons hd t ih =>
    obtain ⟨c, p0⟩ := hd
    intro p h
    unfold maxRs at h
    by_cases hc : c = x
    · subst hc
      rw [if_pos rfl] at h
      cases h2 : maxRs t c with
      | none =>
        rw [h2] at h
        injection h with h
        subst h
        refine ⟨List.mem_cons_self _ _, ?_⟩
        intro q hq
        rcases List.mem_cons.mp hq with h0 | h0
        · injection h0 with ha hb; omega
        · exact absurd h0 (maxRs_none t c h2 q)
      | some m =>
        rw [h2] at h
        injection h with h
        subst h
        obtain ⟨hm, hb⟩ := ih m h2
        constructor
        · rcases max_choice p0 m with hmx | hmx <;> rw [hmx]
          · exact List.mem_cons_self _ _
          · exact List.mem_cons_of_mem _ hm
        · intro q hq
          rcases List.mem_cons.mp hq with h0 | h0
          · injection h0 with ha hb'; subst hb'; exact le_max_left _ _
          · exact le_trans (hb q h0) (le_max_right _ _)
    · rw [if_neg hc] at h
      obtain ⟨hm, hb⟩ := ih p h
      refine ⟨List.mem_cons_of_mem _ hm, ?_⟩
      intro q hq
      rcases List.mem_cons.mp hq with h0 | h0
      · exact absurd (by injection h0 with ha hb'; exact ha.symm) hc
      · exact hb q h0

theorem lookupA_eq_none (l : List (String × Nat)) (x : String) :
    lookupA l x = none ↔ x ∉ l.map Prod.fst := by
  induction l with
  | nil => simp [lookupA]
  | cons hd t ih =>
    obtain ⟨c, p⟩ := hd
    by_cases hc : c = x
    · subst hc; simp [lookupA]
    · simp [lookupA, hc, Ne.symm hc, ih]

theorem lookupA_mem (l : List (String × Nat)) (x : String) (q : Nat)
    (h : lookupA l x = some q) : (x, q) ∈ l := by
  induction l with
  | nil => simp [lookupA] at h
  | cons hd t ih =>
    obtain ⟨c, p⟩ := hd
    unfold lookupA at h
    by_cases hc : c = x
    · subst hc
      rw [if_pos rfl] at h
      injection h with h
      subst h
      exact List.mem_cons_self _ _
    · rw [if_neg hc] at h
      exact List.mem_cons_of_mem _ (ih h)

theorem updateAssoc_keys (l : List (String × Nat)) (c : String) (p : Nat) :
    (updateAssoc l c p).map Prod.fst =
      if (lookupA l c).isSome then l.map Prod.fst
      else l.map Prod.fst ++ [c] := by
  induction l with
  | nil => simp [updateAssoc, lookupA]
  | cons hd t ih =>
    obtain ⟨c0, p0⟩ := hd
    by_cases hc : c0 = c
    · subst hc; simp [updateAssoc, lookupA]
    · simp only [updateAssoc, if_neg hc, lookupA, List.map_cons, ih]
      split <;> simp

theorem foldl_keys_nodup (codes : List (String × Nat)) :
    ∀ acc : List (String × Nat), (acc.map Prod.fst).Nodup →
      ((codes.foldl (fun a cp => updateAssoc a cp.1 cp.2) acc).map Prod.fst).Nodup := by
  induction codes with
  | nil => intro acc h; simpa using h
  | cons hd t ih =>
    intro acc h
    simp only [List.foldl_cons]
    apply ih
    rw [updateAssoc_keys]
    split
    · exact h
    · rename_i hs
      have hnone : lookupA acc hd.1 = none := by
        cases hl : lookupA acc hd.1
        · rfl
        · rw [hl] at hs; simp at hs
      refine h.append (List.nodup_singleton _) ?_
      intro a ha hb
      rcases List.mem_singleton.mp hb with rfl
      exact (lookupA_eq_none acc hd.1).mp hnone ha

theorem final_codes_keys_nodup (codes : List (String × Nat)) :
    ((final_codes codes).map Prod.fst).Nodup :=
  foldl_keys_nodup codes [] (by simp)

/-- The key order a Python dict gives a key sequence: each key at its first
occurrence. -/
def firstOccs : List String → List String
  | [] => []
  | c :: t => c :: (firstOccs t).filter (fun x => !(x == c))

theorem filter_swap (p q : String → Bool) (l : List String) :
    (l.filter p).filter q = (l.filter q).filter p := by
  rw [List.filter_filter, List.filter_filter]
  exact List.filter_congr fun x _ => Bool.and_comm _ _

theorem filter_idem (p : String → Bool) (l : List String) :
    (l.filter p).filter p = l.filter p := by
  rw [List.filter_filter]
  exact List.filter_congr fun x _ => Bool.and_self _

theorem firstOccs_filterNe (c : String) (u : List String) :
    ∀ v, (firstOccs (u ++ c :: v)).filter (fun x => !(x == c))
      = (firstOccs (u ++ v)).filter (fun x => !(x == c)) := by
  induction u with
  | nil =>
    intro v
    simp only [List.nil_append, firstOccs, List.filter_cons]
    simp only [beq_self_eq_true, Bool.not_true, Bool.false_eq_true, if_false]
    exact filter_idem _ _
  | cons x u ih =>
    intro v
    simp only [List.cons_append, firstOccs, List.filter_cons, List.append_eq]
    by_cases hx : x = c
    · subst hx
      simp only [beq_self_eq_true, Bool.not_true, Bool.false_eq_true, if_false]
      rw [filter_idem, filter_idem]
      exact ih v
    · have hxb : (!(x == c)) = true := by simp [hx]
      rw [hxb]
      simp only [if_true]
      rw [filter_swap, ih v, filter_swap]

theorem firstOccs_absorb (c : String) (pre : List String) (h : c ∈ pre) :
    ∀ t, firstOccs (pre ++ c :: t) = firstOccs (pre ++ t) := by
  induction pre with
  | nil => cases h
  | cons x pre ih =>
    intro t
    simp only [List.cons_append, firstOccs, List.append_eq]
    rcases List.mem_cons.mp h with rfl | h2
    · rw [firstOccs_filterNe]
    · rw [ih h2]

theorem firstOccs_nodup_self (l : List String) (h : l.Nodup) : firstOccs l = l := by
  induction l with
  | nil => rfl
  | cons x t ih =>
    obtain ⟨hx, ht⟩ := List.nodup_cons.mp h
    unfold firstOccs
    rw [ih ht]
    congr 1
    exact List.filter_eq_self.mpr fun a ha => by
      simp only [Bool.not_eq_true']
      exact beq_false_of_ne fun hax => hx (hax ▸ ha)

theorem foldl_keys_firstOccs (codes : List (String × Nat)) :
    ∀ acc : List (String × Nat), (acc.map Prod.fst).Nodup →
      ((codes.foldl (fun a cp => updateAssoc a cp.1 cp.2) acc).map Prod.fst)
        = firstOccs (acc.map Prod.fst ++ codes.map Prod.fst) := by
  induction codes with
  | nil =>
    intro acc h
    simp [firstOccs_nodup_self _ h]
  | cons hd t ih =>
    intro acc h
    obtain ⟨c, p⟩ := hd
    simp only [List.foldl_cons, List.map_cons]
    cases hl : lookupA acc c with
    | some q =>
      have hk : (updateAssoc acc c p).map Prod.fst = acc.map Prod.fst := by
        rw [updateAssoc_keys, hl]
        simp
      have hmemk : c ∈ acc.map Prod.fst := by
        by_contra hc
        rw [(lookupA_eq_none acc c).mpr hc] at hl
        cases hl
      rw [ih _ (by rw [hk]; exact h), hk, firstOccs_absorb c _ hmemk]
    | none =>
      have hk : (updateAssoc acc c p).map Prod.fst = acc.map Prod.fst ++ [c] := by
        rw [updateAssoc_keys, hl]
        simp
      have hnodup2 : ((updateAssoc acc c p).map Prod.fst).Nodup := by
        rw [hk]
        exact h.append (List.nodup_singleton _) fun a ha hb =>
          (List.mem_singleton.mp hb ▸ (lookupA_eq_none acc c).mp hl) ha
      rw [ih _ hnodup2, hk]
      simp

theorem final_codes_keys (codes : List (String × Nat)) :
    (final_codes codes).map Prod.fst = firstOccs (codes.map Prod.fst) := by
  have := foldl_keys_firstOccs codes [] (by simp)
  simpa [final_codes] using this

theorem filter_orderedInsert (v : Nat) (x : String × Nat) (l : List (String × Nat)) :
    (List.orderedInsert rge x l).filter (fun y => y.2 == v) =
      if x.2 == v then x :: l.filter (fun y => y.2 == v)
      else l.filter (fun y => y.2 == v) := by
  induction l with
  | nil =>
    by_cases hxv : (x.2 == v) = true <;>
      simp [List.orderedInsert, List.filter_cons, hxv]
  | cons h t ih =>
    simp only [List.orderedInsert]
    by_cases hr : rge x h
    · rw [if_pos hr]
      by_cases hxv : (x.2 == v) = true <;>
        simp [List.filter_cons, hxv]
    · rw [if_neg hr]
      have hlt : x.2 < h.2 := by
        unfold rge at hr
        omega
      by_cases hxv : (x.2 == v) = true
      · have hv : x.2 = v := by simpa using hxv
        have hhv : (h.2 == v) = false := beq_false_of_ne (by omega)
        simp [List.filter_cons, ih, hxv, hhv]
      · have hxv' : (x.2 == v) = false := by
          simpa using hxv
        by_cases hhv : (h.2 == v) = true <;>
          simp [List.filter_cons, ih, hxv', hhv]

theorem sortDesc_filter (v : Nat) (l : List (String × Nat)) :
    (sortDesc l).filter (fun y => y.2 == v) = l.filter (fun y => y.2 == v) := by
  induction l with
  | nil => rfl
  | cons a l ih =>
    simp only [sortDesc, List.insertionSort] at ih ⊢
    rw [filter_orderedInsert, List.filter_cons, ih]

/-- The value the dict comprehension keeps for a key: its last occurrence. -/
def lastVal : List (String × Nat) → String → Option Nat
  | [], _ => none
  | (c, p) :: t, x =>
    match lastVal t x with
    | some q => some q
    | none => if c = x then some p else none

theorem lookupA_dictInsert (l : List (String × Nat)) (c : String) (p : Nat)
    (x : String) :
    lookupA (dictInsert l c p) x = if c = x then some p else lookupA l x := by
  induction l with
  | nil => simp [dictInsert, lookupA]
  | cons hd t ih =>
    obtain ⟨c0, p0⟩ := hd
    by_cases hc : c0 = c
    · subst hc
      by_cases hx : c0 = x
      · subst hx
        simp [dictInsert, lookupA]
      · simp [dictInsert, lookupA, hx]
    · by_cases hx : c0 = x
      · subst hx
        simp [dictInsert, lookupA, hc, Ne.symm hc]
      · simp only [dictInsert, if_neg hc, lookupA, if_neg hx]
        exact ih

theorem lookupA_save_foldl (codes : List (String × Nat)) :
    ∀ acc x,
      lookupA (codes.foldl (fun a cp => dictInsert a cp.1 cp.2) acc) x
        = (match lastVal codes x with
           | some q => some q
           | none => lookupA acc x) := by
  induction codes with
  | nil => intro acc x; rfl
  | cons hd t ih =>
    intro acc x
    obtain ⟨c, p⟩ := hd
    simp only [List.foldl_cons]
    rw [ih, lookupA_dictInsert]
    cases h2 : lastVal t x with
    | some q => simp [lastVal, h2]
    | none =>
      by_cases hc : c = x <;> simp [lastVal, h2, hc]

theorem lookupA_save_cache_map (codes : List (String × Nat)) (x : String) :
    lookupA (save_cache_map codes) x = lastVal codes x := by
  unfold save_cache_map
  rw [lookupA_save_foldl]
  cases h : lastVal codes x <;> simp [lookupA]

theorem lastVal_eq_none (codes : List (String × Nat)) (x : String) :
    lastVal codes x = none ↔ x ∉ codes.map Prod.fst := by
  induction codes with
  | nil => simp [lastVal]
  | cons hd t ih =>
    obtain ⟨c, p⟩ := hd
    simp only [lastVal, List.map_cons, List.mem_cons]
    cases h2 : lastVal t x with
    | some q =>
      have hx : x ∈ t.map Prod.fst := by
        by_contra hm
        rw [ih.mpr hm] at h2
        cases h2
      simp [h2, hx]
    | none =>
      simp only [h2]
      by_cases hc : c = x
      · subst hc
        simp
      · rw [if_neg hc]
        constructor
        · intro _ h3
          rcases h3 with h3 | h3
          · exact hc h3.symm
          · exact ih.mp h2 h3
        · intro _
          rfl

theorem dictInsert_append (l : List (String × Nat)) (c : String) (p : Nat)
    (h : lookupA l c = none) : dictInsert l c p = l ++ [(c, p)] := by
  induction l with
  | nil => rfl
  | cons hd t ih =>
    obtain ⟨c0, p0⟩ := hd
    unfold lookupA at h
    by_cases hc : c0 = c
    · rw [if_pos hc] at h
      cases h
    · rw [if_neg hc] at h
      simp only [dictInsert, if_neg hc, List.cons_append]
      rw [ih h]

theorem save_foldl_nodup (codes : List (String × Nat)) :
    ∀ acc : List (String × Nat),
      ((acc.map Prod.fst ++ codes.map Prod.fst)).Nodup →
      codes.foldl (fun a cp => dictInsert a cp.1 cp.2) acc = acc ++ codes := by
  induction codes with
  | nil => intro acc _; simp
  | cons hd t ih =>
    intro acc h
    obtain ⟨c, p⟩ := hd
    simp only [List.map_cons] at h
    have hdisj := (List.nodup_append.mp h).2.2
    have hcmem : c ∉ acc.map Prod.fst := fun hm =>
      hdisj hm (List.mem_cons_self _ _)
    have hnone : lookupA acc c = none := (lookupA_eq_none acc c).mpr hcmem
    simp only [List.foldl_cons]
    rw [dictInsert_append acc c p hnone, ih (acc ++ [(c, p)]) ?_, List.append_assoc]
    · rfl
    · simp only [List.map_append, List.map_cons, List.map_nil, List.append_assoc,
        List.singleton_append]
      exact h

theorem save_cache_map_of_nodup (codes : List (String × Nat))
    (h : (codes.map Prod.fst).Nodup) : save_cache_map codes = codes := by
  unfold save_cache_map
  have := save_foldl_nodup codes [] (by simpa using h)
  simpa using this

theorem new_codes_mem (codes cached : List (String × Nat)) (c : String) :
    c ∈ new_codes codes cached ↔
      c ∈ codes.map Prod.fst ∧ lookupA cached c = none := by
  unfold new_codes
  constructor
  · intro h
    rcases List.mem_map.mp h with ⟨cp, hcp, rfl⟩
    obtain ⟨hmem, hpred⟩ := List.mem_filter.mp hcp
    refine ⟨List.mem_map.mpr ⟨cp, hmem, rfl⟩, ?_⟩
    cases hl : lookupA cached cp.1 with
    | none => rfl
    | some q => rw [hl] at hpred; simp at hpred
  · rintro ⟨h1, h2⟩
    rcases List.mem_map.mp h1 with ⟨cp, hcp, rfl⟩
    exact List.mem_map.mpr ⟨cp, List.mem_filter.mpr ⟨hcp, by rw [h2]; rfl⟩, rfl⟩

/-! # The claims -/

/-- C1: the spec says an ISO numeric expiry such as "2099-01-01" (free of
the word expired and of any no-expiry phrase) parses to a concrete date by
the third pattern of date_formats. The code disagrees: every ISO date
contains the dash, one of the containment-checked markers, so parse_date
answers noExpiry and the %Y-%m-%d pattern is unreachable; the embedded ISO
parser itself accepts the text, which shows the format list intended it to
parse. -/
theorem claim_C1_eval :
    parse_date "2099-01-01" = .noExpiry
    ∧ containsSub "-".toList (lowerL ("2099-01-01").toList) = true
    ∧ fmtIso ("2099-01-01").toList = some ⟨2099, 1, 1⟩ := by decide

/-- C2 (amended): every (code, expiryStatus, rewardAmount) triple appended
to the candidate list has a status other than Expired, any concrete date it
carries is not in the past (it is on or after the current date), and its
reward is positive. The claim as frozen said "not in the future", which the
counterexample refutes. -/
theorem claim_C2 (today : Date) (cells : List String) (c : String) (p : Nat)
    (h : processRow today cells = some (c, p)) :
    statusNotExpired (parse_date (cells.getD 2 "")) = true
    ∧ statusDateNotPast (parse_date (cells.getD 2 "")) today = true
    ∧ 0 < p := by
  unfold processRow at h
  split at h
  · exact absurd h (by simp)
  · split at h
    · exact absurd h (by simp)
    · split at h
      · exact absurd h (by simp)
      · rename_i d heq
        split at h
        · exact absurd h (by simp)
        · rename_i hlt
          split at h
          · exact absurd h (by simp)
          · rename_i poly hpoly
            split at h
            · rename_i hpos
              injection h with h
              injection h with h1 h2
              subst h2
              rw [heq]
              refine ⟨rfl, ?_, hpos⟩
              simp [statusDateNotPast]
              simpa using hlt
            · exact absurd h (by simp)
      · rename_i heq
        split at h
        · exact absurd h (by simp)
        · rename_i poly hpoly
          split at h
          · rename_i hpos
            injection h with h
            injection h with h1 h2
            subst h2
            rw [heq]
            exact ⟨rfl, rfl, hpos⟩
          · exact absurd h (by simp)

theorem claim_C2_witness :
    statusNotExpired
        (parse_date (["ABCDEF123", "500 Polychrome", "January 1, 2099"].getD 2 "")) = true
    ∧ statusDateNotPast
        (parse_date (["ABCDEF123", "500 Polychrome", "January 1, 2099"].getD 2 ""))
        ⟨2024, 1, 1⟩ = true
    ∧ 0 < 500 :=
  claim_C2 ⟨2024, 1, 1⟩ ["ABCDEF123", "500 Polychrome", "January 1, 2099"]
    "ABCDEF123" 500 (by decide)

/-- C2 counterexample: with the current date 2024-01-01, the row expiring
January 1, 2099 is appended to the candidate list, and its concrete expiry
date is strictly in the future — the filter keeps future dates and drops
past ones, the opposite of the claim's wording. -/
theorem claim_C2_cex :
    processRow ⟨2024, 1, 1⟩ ["ABCDEF123", "500 Polychrome", "January 1, 2099"]
        = some ("ABCDEF123", 500)
    ∧ parse_date "January 1, 2099" = .onDate ⟨2099, 1, 1⟩
    ∧ Date.ltb ⟨2024, 1, 1⟩ ⟨2099, 1, 1⟩ = true := by decide

/-- C3 (amended): a missing cache file loads as the empty mapping (first
run); but when the file exists and json.load fails, no handler catches it,
so the failure propagates instead of degrading to the empty mapping. -/
theorem claim_C3 :
    load_cache none = .ok []
    ∧ (∀ e, load_cache (some (.err e)) = .err e)
    ∧ (∀ m, load_cache (some (.ok m)) = .ok m) :=
  ⟨rfl, fun _ => rfl, fun _ => rfl⟩

/-- C3 counterexample: an existing but unreadable cache file (json.load
fails) does not yield the empty mapping — the error is returned untouched,
and the run does not proceed. -/
theorem claim_C3_cex :
    load_cache (some (.err "malformed")) = .err "malformed"
    ∧ decide (load_cache (some (.err "malformed")) = .ok []) = false := by decide

/-- C8: a transport or HTTP status error on the GET, and a fetched page
without the designated wikitable, each make fetch_codes return the empty
code list along the early-return branches, with no failure escaping. -/
theorem claim_C8 :
    (∀ today, fetch_codes today .netError = [])
    ∧ (∀ today, fetch_codes today (.page none) = []) :=
  ⟨fun _ => rfl, fun _ => rfl⟩

/-- C9: any nonempty expiry text whose lowercasing contains "expired" is
classified Expired, before the no-expiry markers and the date patterns are
even consulted. -/
theorem claim_C9 (txt : String) (h1 : txt ≠ "")
    (h2 : containsSub "expired".toList (lowerL txt.toList) = true) :
    parse_date txt = .expired := by
  have h2' : containsSub ['e', 'x', 'p', 'i', 'r', 'e', 'd'] (lowerL txt.data) = true := h2
  simp [parse_date, h1, h2']

theorem claim_C9_witness : parse_date "Totally EXPIRED, alas [3]" = .expired :=
  claim_C9 "Totally EXPIRED, alas [3]" (by decide) (by decide)

/-- C4: the dedupe dict holds at most one entry per code; any entry it does
hold carries a reward that was observed for the code and is at least every
reward observed for it (so it is the maximum); a code without an entry was
never observed. In particular a code appearing with 50 and 100 keeps one
entry with 100. -/
theorem claim_C4 (codes : List (String × Nat)) :
    ((final_codes codes).map Prod.fst).Nodup
    ∧ (∀ c p, lookupA (final_codes codes) c = some p →
        (c, p) ∈ codes ∧ ∀ q, (c, q) ∈ codes → q ≤ p)
    ∧ (∀ c, lookupA (final_codes codes) c = none → ∀ p, (c, p) ∉ codes)
    ∧ final_codes [("C", 50), ("C", 100)] = [("C", 100)] := by
  refine ⟨final_codes_keys_nodup codes, ?_, ?_, by decide⟩
  · intro c p h
    rw [lookupA_final_codes] at h
    exact maxRs_some codes c p h
  · intro c h
    rw [lookupA_final_codes] at h
    exact maxRs_none codes c h

/-- C5: the aggregated sequence is sorted by reward descending (each entry
relates to every later one by rge); equal-reward entries keep the order the
dict gave them (filtering the output at any reward value reproduces the
pre-sort slice unchanged), and the dict lists codes in the order of their
first occurrence in the input; the [500, 100, 300] example sorts to
[500, 300, 100]. -/
theorem claim_C5 (codes : List (String × Nat)) :
    List.Sorted rge (sortDesc (final_codes codes))
    ∧ (∀ v, (sortDesc (final_codes codes)).filter (fun y => y.2 == v)
        = (final_codes codes).filter (fun y => y.2 == v))
    ∧ (final_codes codes).map Prod.fst = firstOccs (codes.map Prod.fst)
    ∧ sortDesc (final_codes [("A", 500), ("B", 100), ("C", 300)])
        = [("A", 500), ("C", 300), ("B", 100)] :=
  ⟨List.sorted_insertionSort rge _,
   fun v => sortDesc_filter v _,
   final_codes_keys codes,
   by decide⟩

/-- C6: newCodes holds exactly the codes of the new result set whose key is
absent from the previously loaded mapping; the persisted mapping holds
exactly the new set's keys (codes only in the old mapping are dropped), and
on the duplicate-free output of the aggregator it is exactly the new set's
code-reward pairs; the {A:10} to {A:10, B:20} example gives newCodes [B]
and persisted cache {A:10, B:20}. -/
theorem claim_C6 (codes cached : List (String × Nat)) :
    (∀ c, c ∈ new_codes codes cached ↔
        (c ∈ codes.map Prod.fst ∧ lookupA cached c = none))
    ∧ (∀ c, (lookupA (save_cache_map codes) c).isSome = true ↔
        c ∈ codes.map Prod.fst)
    ∧ ((codes.map Prod.fst).Nodup → save_cache_map codes = codes)
    ∧ new_codes [("A", 10), ("B", 20)] [("A", 10)] = ["B"]
    ∧ save_cache_map [("A", 10), ("B", 20)] = [("A", 10), ("B", 20)] := by
  refine ⟨new_codes_mem codes cached, ?_, save_cache_map_of_nodup codes,
    by decide, by decide⟩
  intro c
  rw [lookupA_save_cache_map]
  cases h : lastVal codes c with
  | none => simp [(lastVal_eq_none codes c).mp h]
  | some q =>
    have hmem : c ∈ codes.map Prod.fst := by
      by_contra hm
      rw [(lastVal_eq_none codes c).mpr hm] at h
      cases h
    simp [hmem]

/-- C7: on exactly the two example rows, with any current date before
January 1, 2099, the pipeline keeps only ABCDEF123 with reward 500: the
second row is dropped by its expired marker, the first parses, passes the
date filter and yields 500. -/
theorem claim_C7 (today : Date) (h : Date.ltb today ⟨2099, 1, 1⟩ = true) :
    fetch_codes today (.page (some
        [["ABCDEF123", "500 Polychrome", "January 1, 2099"],
         ["GHIJKL456", "300 Polychromes", "expired"]]))
      = [("ABCDEF123", 500)] := by
  have hc : code_search ⟨upperL "ABCDEF123".toList⟩ = some "ABCDEF123" := by decide
  have hd : parse_date "January 1, 2099" = .onDate ⟨2099, 1, 1⟩ := by decide
  have hp : poly_search "500 Polychrome" = some 500 := by decide
  have hlt : Date.ltb ⟨2099, 1, 1⟩ today = false := Date.ltb_asymm today _ h
  have h1 : processRow today ["ABCDEF123", "500 Polychrome", "January 1, 2099"]
      = some ("ABCDEF123", 500) := by
    unfold processRow
    simp only [List.isEmpty_cons, Bool.false_eq_true, if_false, List.getD_cons_zero,
      List.getD_cons_succ, hc, hd, hp, hlt]
    simp
  have h2 : processRow today ["GHIJKL456", "300 Polychromes", "expired"] = none := rfl
  have h3 : collectCodes today
      [["ABCDEF123", "500 Polychrome", "January 1, 2099"],
       ["GHIJKL456", "300 Polychromes", "expired"]] = [("ABCDEF123", 500)] := by
    simp [collectCodes, h1, h2]
  show sortDesc (final_codes (collectCodes today
      [["ABCDEF123", "500 Polychrome", "January 1, 2099"],
       ["GHIJKL456", "300 Polychromes", "expired"]])) = [("ABCDEF123", 500)]
  rw [h3]
  decide

theorem claim_C7_witness :
    fetch_codes ⟨2025, 10, 12⟩ (.page (some
        [["ABCDEF123", "500 Polychrome", "January 1, 2099"],
         ["GHIJKL456", "300 Polychromes", "expired"]]))
      = [("ABCDEF123", 500)] :=
  claim_C7 ⟨2025, 10, 12⟩ (by decide)

/-- C10: only an expiry date strictly earlier than the current date excludes
a row; a row whose expiry text parses exactly to the current date, with a
matching code and a positive reward, is appended, and the code appears in
the final result set with at least that reward. -/
theorem claim_C10 (today : Date) (ct rt et : String) (code : String) (p : Nat)
    (rows : List (List String))
    (h1 : code_search ⟨upperL ct.toList⟩ = some code)
    (h2 : parse_date et = .onDate today)
    (h3 : poly_search rt = some p)
    (h4 : 0 < p)
    (h5 : [ct, rt, et] ∈ rows) :
    processRow today [ct, rt, et] = some (code, p)
    ∧ p ≤ (lookupA (final_codes (collectCodes today rows)) code).getD 0
    ∧ (code, (lookupA (final_codes (collectCodes today rows)) code).getD 0)
        ∈ sortDesc (final_codes (collectCodes today rows)) := by
  have hrow : processRow today [ct, rt, et] = some (code, p) := by
    unfold processRow
    simp only [List.isEmpty_cons, Bool.false_eq_true, if_false, List.getD_cons_zero,
      List.getD_cons_succ, h1, h2, h3, Date.ltb_irrefl, if_pos h4]
  have hmem : (code, p) ∈ collectCodes today rows :=
    List.mem_filterMap.mpr ⟨[ct, rt, et], h5, hrow⟩
  cases hmax : maxRs (collectCodes today rows) code with
  | none => exact absurd hmem (maxRs_none _ _ hmax p)
  | some m =>
    have hlk : lookupA (final_codes (collectCodes today rows)) code = some m := by
      rw [lookupA_final_codes, hmax]
    obtain ⟨hmm, hb⟩ := maxRs_some _ _ m hmax
    refine ⟨hrow, ?_, ?_⟩
    · rw [hlk]
      simpa using hb p hmem
    · rw [hlk]
      simp only [Option.getD_some]
      exact (List.perm_insertionSort rge _).mem_iff.mpr (lookupA_mem _ _ _ hlk)

theorem claim_C10_witness :
    processRow ⟨2025, 1, 2⟩ ["ABCDEF123", "60 Polychromes", "January 2, 2025"]
        = some ("ABCDEF123", 60)
    ∧ 60 ≤ (lookupA (final_codes (collectCodes ⟨2025, 1, 2⟩
        [["ABCDEF123", "60 Polychromes", "January 2, 2025"]])) "ABCDEF123").getD 0
    ∧ ("ABCDEF123", (lookupA (final_codes (collectCodes ⟨2025, 1, 2⟩
        [["ABCDEF123", "60 Polychromes", "January 2, 2025"]])) "ABCDEF123").getD 0)
        ∈ sortDesc (final_codes (collectCodes ⟨2025, 1, 2⟩
        [["ABCDEF123", "60 Polychromes", "January 2, 2025"]])) :=
  claim_C10 ⟨2025, 1, 2⟩ "ABCDEF123" "60 Polychromes" "January 2, 2025"
    "ABCDEF123" 60 [["ABCDEF123", "60 Polychromes", "January 2, 2025"]]
    (by decide) (by decide) (by decide) (by decide) (by decide)

end ZC
